import Mathlib

/-!
The query_txid plugin: the scanner and the writer of the txid index.

Shallow embedding of `query_txid_plugin_impl::put_entry_queue` and
`query_txid_plugin_impl::get_entry_queue`
(libraries/plugins/query_txid/query_txid_plugin.cpp).

Modelling decisions.

* `std::queue<trx_entry_object>` is a list, front first: `push` appends at the
  end, `front`/`pop` take the head.
* `uint32_t curr_block_num` is a natural number below `2 ^ 32`; the only
  arithmetic on it, `curr_block_num++`, is taken modulo `2 ^ 32`.
  `uint64_t irr_num`, `limit_batch`, `size_queue` are natural numbers. The
  only caller, `collect_txid_index`, passes `last_irreversible_block_num`, a
  32-bit block number, as `irr_num`.
* The `by_blocknum` index of the chain database is a parameter: the list of the
  index's objects in iteration order. `lower_bound` walks to the first object
  whose key is not less than the argument, which is what the ordered index
  returns when the list is sorted by `block_num`.
* The index is the same list throughout a sequence of calls. The `block_num`
  of an index object is a 32-bit block number, so the assignment
  `curr_block_num = itor->block_num` copies it unchanged.
* The two calls are modelled as sequential steps on the shared state, each
  running under the mutex from its wait to its unlock. A wait whose condition
  is not met makes the step `blocked`; the notifications have no sequential
  effect.
* The leveldb store is an association list from key to value with
  replace-on-put; `db->Write` is assumed to succeed (the code ignores the
  returned status). The value stored is the entry itself, standing for its
  `fc::raw::pack` serialisation, and the key is the entry's txid.
* The loop counter `idx` of the batch loop is not bounded (the code's `int`
  counter is exact for every `limit_batch` below `2 ^ 31`).
* The drain loop may fail to terminate, so it takes fuel: one unit per
  iteration of the `while`, `outOfFuel` when the condition still holds and no
  fuel is left.
-/

namespace QueryTxid

/-- The object `trx_entry_object`: transaction id, block number, position in the block. -/
structure Entry where
  txid : Nat
  block_num : Nat
  trx_in_block : Nat
deriving DecidableEq, Repr

/-- One `leveldb::WriteBatch`: the `Put(key, value)` operations in call order. -/
abbrev Batch := List (Nat × Entry)

/-- The mutable state the two calls share, and the store the writer owns. -/
structure State where
  trx_queue : List Entry
  curr_block_num : Nat
  db : List (Nat × Entry)
deriving DecidableEq, Repr

/-- How a call ends: it returns, it waits on a condition variable that nothing
    in a sequential run can signal, it applies `front`/`pop` to an empty queue,
    or its loop is still running when the fuel is gone. -/
inductive Outcome (α : Type) where
  | done (a : α)
  | blocked
  | emptyPop
  | outOfFuel
deriving DecidableEq, Repr

/-- Modulus of `uint32_t`. -/
def UINT32_MOD : Nat := 2 ^ 32

/-! ## put_entry_queue -/

/-- The call `bybn_idx.lower_bound(key)`: the part of the index from the first
    object whose `block_num` is not less than `key`. -/
def lower_bound (idx : List Entry) (key : Nat) : List Entry :=
  idx.dropWhile (fun e => decide (e.block_num < key))

/-- The `for` loop of `put_entry_queue` from iterator position `it`: while the
    object's `block_num` is below `irr_num`, push it and set the cursor to its
    block number; `break` at the first object that is not. Returns the queue
    and the cursor at loop exit. -/
def scanLoop (irr_num : Nat) : List Entry → List Entry × Nat → List Entry × Nat
  | [], acc => acc
  | e :: rest, (q, c) =>
    if e.block_num < irr_num then scanLoop irr_num rest (q ++ [e], e.block_num)
    else (q, c)

/-- The call `put_entry_queue(irr_num)`: wait while the queue holds `size_queue`
    entries or more, run the scan, then `curr_block_num++`. -/
def put_entry_queue (size_queue : Nat) (idx : List Entry) (irr_num : Nat) (s : State) :
    Outcome State :=
  if s.trx_queue.length ≥ size_queue then Outcome.blocked
  else
    let r := scanLoop irr_num (lower_bound idx s.curr_block_num) (s.trx_queue, s.curr_block_num)
    Outcome.done { s with trx_queue := r.1, curr_block_num := (r.2 + 1) % UINT32_MOD }

/-! ## get_entry_queue -/

/-- The call `db.Put`-style update of the store: the value under `k` becomes `v`. -/
def dbPut (db : List (Nat × Entry)) (k : Nat) (v : Entry) : List (Nat × Entry) :=
  db.filter (fun p => decide (p.1 ≠ k)) ++ [(k, v)]

/-- The call `db->Write(write_options, &batch)`: apply the puts of the batch in order. -/
def dbWrite (db : List (Nat × Entry)) (batch : Batch) : List (Nat × Entry) :=
  batch.foldl (fun d p => dbPut d p.1 p.2) db

/-- The inner `for` loop of `get_entry_queue`, with `n` iterations to go: take
    the front item, pop it, and add `Put(txid, item)` to the batch. `none` when
    `front`/`pop` would be applied to an empty queue. -/
def fillBatch : Nat → List Entry → Batch → Option (List Entry × Batch)
  | 0, q, batch => some (q, batch)
  | _ + 1, [], _ => none
  | n + 1, item :: q, batch => fillBatch n q (batch ++ [(item.txid, item)])

/-- One execution of the body of the drain loop: build a batch of `limit_batch`
    items and write it. Returns the new state and the batch written. -/
def drainBody (limit_batch : Nat) (s : State) : Option (State × Batch) :=
  match fillBatch limit_batch s.trx_queue [] with
  | none => none
  | some (q, batch) => some ({ s with trx_queue := q, db := dbWrite s.db batch }, batch)

/-- The loop `while(trx_queue.size()>limit_batch)` of `get_entry_queue`. The
    list `log` collects the batches written so far, oldest first. -/
def drainLoop (limit_batch : Nat) : Nat → State → List Batch → Outcome (State × List Batch)
  | 0, s, log =>
    if s.trx_queue.length > limit_batch then Outcome.outOfFuel else Outcome.done (s, log)
  | fuel + 1, s, log =>
    if s.trx_queue.length > limit_batch then
      match drainBody limit_batch s with
      | none => Outcome.emptyPop
      | some (s', batch) => drainLoop limit_batch fuel s' (log ++ [batch])
    else Outcome.done (s, log)

/-- The call `get_entry_queue()`: wait while the queue is empty, then drain.
    Returns the final state and the batches written, in commit order. -/
def get_entry_queue (limit_batch : Nat) (fuel : Nat) (s : State) :
    Outcome (State × List Batch) :=
  if s.trx_queue.length = 0 then Outcome.blocked
  else drainLoop limit_batch fuel s []

/-! ## Derived notions used by the statements -/

/-- The index is ordered by `block_num`, as the `by_blocknum` index is. -/
def SortedIdx (idx : List Entry) : Prop :=
  idx.Pairwise (fun a b => a.block_num ≤ b.block_num)

instance (idx : List Entry) : Decidable (SortedIdx idx) := by
  unfold SortedIdx; infer_instance

/-- The entries a batch log wrote, in the order of the writes. -/
def written (log : List Batch) : List Entry :=
  (log.flatten).map Prod.snd

/-- The keys present in the store. -/
def keys (db : List (Nat × Entry)) : List Nat :=
  db.map Prod.fst

/-- The test of the scan loop: the object's block number is below `irr_num`. -/
def below (irr_num : Nat) (e : Entry) : Bool := decide (e.block_num < irr_num)

/-- The entries one call of `put_entry_queue` pushed: what the queue holds
    beyond its length before the call. -/
def enqueued (before after : State) : List Entry :=
  after.trx_queue.drop before.trx_queue.length

/-- A sequence of `put_entry_queue` calls over the same index, one per height,
    each starting in the state the previous one left. Returns the final state
    and, per call, the entries that call pushed. -/
def putCalls (size_queue : Nat) (idx : List Entry) :
    List Nat → State → Outcome (State × List (List Entry))
  | [], s => Outcome.done (s, [])
  | h :: hs, s =>
    match put_entry_queue size_queue idx h s with
    | Outcome.done s1 =>
      match putCalls size_queue idx hs s1 with
      | Outcome.done (sf, log) => Outcome.done (sf, enqueued s s1 :: log)
      | Outcome.blocked => Outcome.blocked
      | Outcome.emptyPop => Outcome.emptyPop
      | Outcome.outOfFuel => Outcome.outOfFuel
    | Outcome.blocked => Outcome.blocked
    | Outcome.emptyPop => Outcome.emptyPop
    | Outcome.outOfFuel => Outcome.outOfFuel

/-- The value of `curr_block_num` when the scan loop of `put_entry_queue(irr_num)`
    exits, before the `curr_block_num++`, for a call entered with cursor `c`. -/
def cursorAtExit (idx : List Entry) (irr_num : Nat) (c : Nat) : Nat :=
  (scanLoop irr_num (lower_bound idx c) ([], c)).2

/-- No `curr_block_num++` of the call sequence wraps: each call increments a
    value below `2 ^ 32 - 1`. -/
def NoWrap (idx : List Entry) : List Nat → Nat → Prop
  | [], _ => True
  | h :: hs, c =>
    cursorAtExit idx h c + 1 < UINT32_MOD ∧ NoWrap idx hs (cursorAtExit idx h c + 1)

instance instDecidableNoWrap (idx : List Entry) :
    ∀ (hs : List Nat) (c : Nat), Decidable (NoWrap idx hs c)
  | [], _ => isTrue trivial
  | h :: hs, c =>
    have := instDecidableNoWrap idx hs (cursorAtExit idx h c + 1)
    inferInstanceAs (Decidable (cursorAtExit idx h c + 1 < UINT32_MOD ∧
      NoWrap idx hs (cursorAtExit idx h c + 1)))

/-- The states reachable from an empty queue by calls of `put_entry_queue`
    (which returns only when it found the queue shorter than `size_queue`) and
    of `get_entry_queue`. -/
inductive Reachable (size_queue limit_batch : Nat) (idx : List Entry) : State → Prop where
  | start (c : Nat) (db : List (Nat × Entry)) : Reachable size_queue limit_batch idx ⟨[], c, db⟩
  | put (irr_num : Nat) (s s1 : State) :
      Reachable size_queue limit_batch idx s →
      put_entry_queue size_queue idx irr_num s = Outcome.done s1 →
      Reachable size_queue limit_batch idx s1
  | get (fuel : Nat) (s s1 : State) (log : List Batch) :
      Reachable size_queue limit_batch idx s →
      get_entry_queue limit_batch fuel s = Outcome.done (s1, log) →
      Reachable size_queue limit_batch idx s1

/-- Scenario A index: one entry for each of the blocks 1..5. -/
def scenarioA : List Entry :=
  [⟨101, 1, 0⟩, ⟨102, 2, 0⟩, ⟨103, 3, 0⟩, ⟨104, 4, 0⟩, ⟨105, 5, 0⟩]

/-- The initial state: empty queue, cursor 0, empty store. -/
def init : State := ⟨[], 0, []⟩

/-! ## The scan -/

theorem scanLoop_fst (irr_num : Nat) (l : List Entry) (q : List Entry) (c : Nat) :
    (scanLoop irr_num l (q, c)).1 = q ++ l.takeWhile (below irr_num) := by
  induction l generalizing q c with
  | nil => simp [scanLoop]
  | cons e rest ih =>
    by_cases h : e.block_num < irr_num
    · simp [scanLoop, h, ih, below, List.takeWhile_cons]
    · simp [scanLoop, h, below, List.takeWhile_cons]

theorem scanLoop_snd (irr_num : Nat) (l : List Entry) (q : List Entry) (c : Nat) :
    (scanLoop irr_num l (q, c)).2 =
      (((l.takeWhile (below irr_num)).getLast?).map Entry.block_num).getD c := by
  induction l generalizing q c with
  | nil => simp [scanLoop]
  | cons e rest ih =>
    by_cases h : e.block_num < irr_num
    · simp only [scanLoop, h, if_true, ih]
      have : List.takeWhile (below irr_num) (e :: rest)
          = e :: List.takeWhile (below irr_num) rest := by
        simp [List.takeWhile_cons, below, h]
      rw [this]
      cases hl : (List.takeWhile (below irr_num) rest).getLast? with
      | none =>
        have : List.takeWhile (below irr_num) rest = [] := by
          simpa using hl
        simp [this]
      | some x =>
        have : (e :: List.takeWhile (below irr_num) rest).getLast? = some x := by
          rw [List.getLast?_cons, hl]; rfl
        simp [this]
    · simp [scanLoop, h, below, List.takeWhile_cons]

theorem takeWhile_below_sorted (irr_num : Nat) (l : List Entry) (hs : SortedIdx l) :
    l.takeWhile (below irr_num) = l.filter (below irr_num) := by
  induction l with
  | nil => simp
  | cons e rest ih =>
    have hs2 := List.pairwise_cons.mp hs
    by_cases h : e.block_num < irr_num
    · have hb : below irr_num e = true := by simp [below, h]
      rw [List.takeWhile_cons, List.filter_cons, hb]
      simp [ih hs2.2]
    · have hb : below irr_num e = false := by simp [below, h]
      rw [List.takeWhile_cons, List.filter_cons, hb]
      simp only [Bool.false_eq_true, if_false]
      symm
      rw [List.filter_eq_nil_iff]
      intro x hx
      have := hs2.1 x hx
      simp only [below, decide_eq_true_eq]
      omega

theorem lower_bound_sorted (c : Nat) (l : List Entry) (hs : SortedIdx l) :
    lower_bound l c = l.filter (fun e => decide (c ≤ e.block_num)) := by
  unfold lower_bound
  induction l with
  | nil => simp
  | cons e rest ih =>
    have hs2 := List.pairwise_cons.mp hs
    by_cases h : e.block_num < c
    · rw [List.dropWhile_cons, List.filter_cons]
      have : ¬ c ≤ e.block_num := by omega
      simp [h, this, ih hs2.2]
    · rw [List.dropWhile_cons, List.filter_cons]
      have hc : c ≤ e.block_num := by omega
      simp only [h, decide_False, Bool.false_eq_true, if_false, hc, decide_True, if_true]
      congr 1
      symm
      rw [List.filter_eq_self]
      intro x hx
      have := hs2.1 x hx
      simp only [decide_eq_true_eq]
      omega

theorem lower_bound_sublist (c : Nat) (l : List Entry) : (lower_bound l c).Sublist l := by
  unfold lower_bound
  exact List.dropWhile_sublist _

theorem sortedIdx_lower_bound (c : Nat) (l : List Entry) (hs : SortedIdx l) :
    SortedIdx (lower_bound l c) :=
  List.Pairwise.sublist (lower_bound_sublist c l) hs

/-- What one scan pushes when the index is sorted: the entries between the
    cursor and the height, in index order. -/
theorem scan_pushes (irr_num c : Nat) (idx : List Entry) (hs : SortedIdx idx) :
    (lower_bound idx c).takeWhile (below irr_num)
      = idx.filter (fun e => decide (c ≤ e.block_num ∧ e.block_num < irr_num)) := by
  rw [takeWhile_below_sorted irr_num _ (sortedIdx_lower_bound c idx hs),
    lower_bound_sorted c idx hs, List.filter_filter]
  congr 1
  funext e
  simp [below, Bool.and_comm]

theorem put_entry_queue_done (size_queue : Nat) (idx : List Entry) (irr_num : Nat) (s : State)
    (hq : s.trx_queue.length < size_queue) :
    put_entry_queue size_queue idx irr_num s = Outcome.done
      { trx_queue := s.trx_queue ++ (lower_bound idx s.curr_block_num).takeWhile (below irr_num),
        curr_block_num := (cursorAtExit idx irr_num s.curr_block_num + 1) % UINT32_MOD,
        db := s.db } := by
  have hn : ¬ s.trx_queue.length ≥ size_queue := by omega
  simp only [put_entry_queue, hn, if_false, scanLoop_fst, scanLoop_snd, cursorAtExit]

theorem enqueued_put (size_queue : Nat) (idx : List Entry) (irr_num : Nat) (s s1 : State)
    (h : put_entry_queue size_queue idx irr_num s = Outcome.done s1) :
    s.trx_queue.length < size_queue ∧
    s1.trx_queue = s.trx_queue ++ (lower_bound idx s.curr_block_num).takeWhile (below irr_num) ∧
    enqueued s s1 = (lower_bound idx s.curr_block_num).takeWhile (below irr_num) ∧
    s1.curr_block_num = (cursorAtExit idx irr_num s.curr_block_num + 1) % UINT32_MOD ∧
    s1.db = s.db := by
  by_cases hq : s.trx_queue.length < size_queue
  · rw [put_entry_queue_done size_queue idx irr_num s hq] at h
    injection h with h
    subst h
    simp [enqueued, hq]
  · have hn : s.trx_queue.length ≥ size_queue := by omega
    simp [put_entry_queue, hn] at h

theorem cursorAtExit_eq (idx : List Entry) (irr_num c : Nat) :
    cursorAtExit idx irr_num c =
      ((((lower_bound idx c).takeWhile (below irr_num)).getLast?).map Entry.block_num).getD c := by
  simp [cursorAtExit, scanLoop_snd]

theorem sorted_le_last (l : List Entry) (hs : SortedIdx l) (e : Entry)
    (hl : l.getLast? = some e) : ∀ x ∈ l, x.block_num ≤ e.block_num := by
  induction l with
  | nil => simp
  | cons a rest ih =>
    have hs2 := List.pairwise_cons.mp hs
    intro x hx
    cases hr : rest.getLast? with
    | none =>
      have hnil : rest = [] := by simpa using hr
      subst hnil
      simp at hl hx
      subst hl; subst hx; exact Nat.le_refl _
    | some y =>
      have hy : (a :: rest).getLast? = some y := by
        rw [List.getLast?_cons, hr]; rfl
      rw [hy] at hl
      injection hl with hl
      subst hl
      rcases List.mem_cons.mp hx with hxa | hxr
      · subst hxa
        exact hs2.1 y (List.mem_of_getLast?_eq_some hr)
      · exact ih hs2.2 hr x hxr

/-- Bounds on the cursor at loop exit, for a sorted index. -/
theorem cursorAtExit_spec (idx : List Entry) (irr_num c : Nat) (hs : SortedIdx idx) :
    c ≤ cursorAtExit idx irr_num c ∧
    (∀ x ∈ (lower_bound idx c).takeWhile (below irr_num),
        c ≤ x.block_num ∧ x.block_num ≤ cursorAtExit idx irr_num c ∧ x.block_num < irr_num) ∧
    (cursorAtExit idx irr_num c = c ∨ cursorAtExit idx irr_num c < irr_num) := by
  have hmem : ∀ x ∈ (lower_bound idx c).takeWhile (below irr_num),
      c ≤ x.block_num ∧ x.block_num < irr_num := by
    intro x hx
    rw [scan_pushes irr_num c idx hs] at hx
    simpa using (List.mem_filter.mp hx).2
  have hsort : SortedIdx ((lower_bound idx c).takeWhile (below irr_num)) :=
    List.Pairwise.sublist (List.takeWhile_sublist _) (sortedIdx_lower_bound c idx hs)
  rw [cursorAtExit_eq]
  cases hl : ((lower_bound idx c).takeWhile (below irr_num)).getLast? with
  | none =>
    have hnil : (lower_bound idx c).takeWhile (below irr_num) = [] := by simpa using hl
    simp [hnil]
  | some e =>
    have he := hmem e (List.mem_of_getLast?_eq_some hl)
    have hle := sorted_le_last _ hsort e hl
    refine ⟨by simpa using he.1, ?_, Or.inr (by simpa using he.2)⟩
    intro x hx
    exact ⟨(hmem x hx).1, by simpa using hle x hx, (hmem x hx).2⟩

/-! ## Claims on put_entry_queue -/

/-- C2, single-scan correctness: over an index sorted by block number, from any
    cursor `c`, any height `irr_num` and any queue shorter than `size_queue`,
    `put_entry_queue` returns with the queue equal to the old queue followed by
    exactly the index entries `e` with `c ≤ e.block_num < irr_num`, in index
    order, and no pushed entry has a block number at or above `irr_num`. -/
theorem put_entry_queue_single_scan (size_queue : Nat) (idx : List Entry) (irr_num : Nat)
    (s : State) (hs : SortedIdx idx) (hq : s.trx_queue.length < size_queue) :
    ∃ s1, put_entry_queue size_queue idx irr_num s = Outcome.done s1 ∧
      s1.trx_queue = s.trx_queue ++
        idx.filter (fun e => decide (s.curr_block_num ≤ e.block_num ∧ e.block_num < irr_num)) ∧
      (∀ e ∈ enqueued s s1, e.block_num < irr_num) := by
  refine ⟨_, put_entry_queue_done size_queue idx irr_num s hq, ?_, ?_⟩
  · simp only [scan_pushes irr_num s.curr_block_num idx hs]
  · intro e he
    have h := enqueued_put size_queue idx irr_num s _
      (put_entry_queue_done size_queue idx irr_num s hq)
    rw [h.2.2.1] at he
    exact ((cursorAtExit_spec idx irr_num s.curr_block_num hs).2.1 e he).2.2

theorem put_entry_queue_single_scan_witness :
    SortedIdx scenarioA ∧ init.trx_queue.length < 10 ∧
    ∃ s1, put_entry_queue 10 scenarioA 4 init = Outcome.done s1 ∧
      s1.trx_queue = init.trx_queue ++
        scenarioA.filter (fun e => decide (init.curr_block_num ≤ e.block_num ∧ e.block_num < 4)) ∧
      (∀ e ∈ enqueued init s1, e.block_num < 4) :=
  ⟨by decide, by decide, put_entry_queue_single_scan 10 scenarioA 4 init (by decide) (by decide)⟩

/-- C5, as amended: when `put_entry_queue(irr_num)` returns having pushed at
    least one entry, `curr_block_num` is one more than the block number of the
    last entry pushed (modulo `2 ^ 32`), and it is at most `irr_num`. -/
theorem put_entry_queue_cursor_after (size_queue : Nat) (idx : List Entry) (irr_num : Nat)
    (s : State) (hq : s.trx_queue.length < size_queue) :
    ∃ s1, put_entry_queue size_queue idx irr_num s = Outcome.done s1 ∧
      ∀ e, (enqueued s s1).getLast? = some e →
        s1.curr_block_num = (e.block_num + 1) % UINT32_MOD ∧ s1.curr_block_num ≤ irr_num := by
  refine ⟨_, put_entry_queue_done size_queue idx irr_num s hq, ?_⟩
  intro e he
  have h := enqueued_put size_queue idx irr_num s _
    (put_entry_queue_done size_queue idx irr_num s hq)
  rw [h.2.2.1] at he
  have hmem := List.mem_of_getLast?_eq_some he
  have hlt : e.block_num < irr_num := by
    have := (List.mem_takeWhile_imp hmem)
    simpa [below] using this
  have hc : cursorAtExit idx irr_num s.curr_block_num = e.block_num := by
    rw [cursorAtExit_eq, he]; rfl
  simp only [hc]
  refine ⟨trivial, ?_⟩
  have := Nat.mod_le (e.block_num + 1) UINT32_MOD
  omega

theorem put_entry_queue_cursor_after_witness :
    init.trx_queue.length < 10 ∧
    put_entry_queue 10 scenarioA 6 init = Outcome.done ⟨scenarioA, 6, []⟩ ∧
    ∃ s1, put_entry_queue 10 scenarioA 6 init = Outcome.done s1 ∧
      ∀ e, (enqueued init s1).getLast? = some e →
        s1.curr_block_num = (e.block_num + 1) % UINT32_MOD ∧ s1.curr_block_num ≤ 6 :=
  ⟨by decide, by decide, put_entry_queue_cursor_after 10 scenarioA 6 init (by decide)⟩

/-- C5 as stated fails: with entries in the blocks 1..3 only, cursor 0 and
    height 6, the call returns with `curr_block_num = 4`, not 6. -/
theorem put_entry_queue_cursor_not_height :
    ∃ s1, put_entry_queue 10 [⟨101, 1, 0⟩, ⟨102, 2, 0⟩, ⟨103, 3, 0⟩] 6 init = Outcome.done s1 ∧
      s1.curr_block_num = 4 ∧ s1.curr_block_num ≠ 6 :=
  ⟨⟨[⟨101, 1, 0⟩, ⟨102, 2, 0⟩, ⟨103, 3, 0⟩], 4, []⟩, by decide, by decide, by decide⟩

/-- C8, repeated height (Scenario C): over a sorted index, from every cursor
    below `2 ^ 32 - 1` and for every height (the 32-bit block number
    `last_irreversible_block_num` the caller passes, so `irr_num < 2 ^ 32`), a
    second `put_entry_queue` call with the same height pushes nothing: it
    returns with the queue the first call left. -/
theorem put_entry_queue_same_height (size_queue : Nat) (idx : List Entry) (irr_num : Nat)
    (s s1 : State) (hs : SortedIdx idx) (hc : s.curr_block_num < UINT32_MOD - 1)
    (hH : irr_num < UINT32_MOD)
    (h1 : put_entry_queue size_queue idx irr_num s = Outcome.done s1)
    (h2 : s1.trx_queue.length < size_queue) :
    ∃ s2, put_entry_queue size_queue idx irr_num s1 = Outcome.done s2 ∧
      s2.trx_queue = s1.trx_queue ∧ enqueued s1 s2 = [] := by
  have e1 := enqueued_put size_queue idx irr_num s s1 h1
  have sp := cursorAtExit_spec idx irr_num s.curr_block_num hs
  have hM : UINT32_MOD = 4294967296 := by decide
  have hexit : cursorAtExit idx irr_num s.curr_block_num + 1 < UINT32_MOD := by
    rcases sp.2.2 with h | h <;> omega
  have hcur : s1.curr_block_num = cursorAtExit idx irr_num s.curr_block_num + 1 := by
    rw [e1.2.2.2.1, Nat.mod_eq_of_lt hexit]
  have hnil : (lower_bound idx s1.curr_block_num).takeWhile (below irr_num) = [] := by
    rw [scan_pushes irr_num _ idx hs, List.filter_eq_nil_iff]
    intro x hx hpx
    simp only [decide_eq_true_eq] at hpx
    have hx1 : x ∈ (lower_bound idx s.curr_block_num).takeWhile (below irr_num) := by
      rw [scan_pushes irr_num _ idx hs, List.mem_filter]
      refine ⟨hx, ?_⟩
      simp only [decide_eq_true_eq]
      have := sp.1
      omega
    have := (sp.2.1 x hx1).2.1
    omega
  refine ⟨_, put_entry_queue_done size_queue idx irr_num s1 h2, ?_, ?_⟩
  · simp [hnil]
  · have e2 := enqueued_put size_queue idx irr_num s1 _
      (put_entry_queue_done size_queue idx irr_num s1 h2)
    rw [e2.2.2.1, hnil]

theorem put_entry_queue_same_height_witness :
    SortedIdx scenarioA ∧ init.curr_block_num < UINT32_MOD - 1 ∧ 6 < UINT32_MOD ∧
    put_entry_queue 10 scenarioA 6 init = Outcome.done ⟨scenarioA, 6, []⟩ ∧
    ∃ s2, put_entry_queue 10 scenarioA 6 ⟨scenarioA, 6, []⟩ = Outcome.done s2 ∧
      s2.trx_queue = scenarioA ∧ enqueued ⟨scenarioA, 6, []⟩ s2 = [] :=
  ⟨by decide, by decide, by decide, by decide,
    put_entry_queue_same_height 10 scenarioA 6 init ⟨scenarioA, 6, []⟩
      (by decide) (by decide) (by decide) (by decide) (by decide)⟩

/-! ## Sequences of put_entry_queue calls -/

theorem putCalls_cons_done (size_queue : Nat) (idx : List Entry) (h : Nat) (hs : List Nat)
    (s sf : State) (log : List (List Entry))
    (hr : putCalls size_queue idx (h :: hs) s = Outcome.done (sf, log)) :
    ∃ s1 rest, put_entry_queue size_queue idx h s = Outcome.done s1 ∧
      putCalls size_queue idx hs s1 = Outcome.done (sf, rest) ∧ log = enqueued s s1 :: rest := by
  simp only [putCalls] at hr
  cases hp : put_entry_queue size_queue idx h s with
  | done s1 =>
    rw [hp] at hr
    simp only at hr
    cases hc : putCalls size_queue idx hs s1 with
    | done r =>
      obtain ⟨sf1, rest⟩ := r
      rw [hc] at hr
      simp only at hr
      injection hr with hr
      injection hr with h1 h2
      subst h1; subst h2
      exact ⟨s1, rest, rfl, hc, rfl⟩
    | blocked => rw [hc] at hr; simp at hr
    | emptyPop => rw [hc] at hr; simp at hr
    | outOfFuel => rw [hc] at hr; simp at hr
  | blocked => rw [hp] at hr; simp at hr
  | emptyPop => rw [hp] at hr; simp at hr
  | outOfFuel => rw [hp] at hr; simp at hr

/-- Without a wrap, everything a call sequence pushes lies at or above the
    cursor the sequence started from. -/
theorem putCalls_above_cursor (size_queue : Nat) (idx : List Entry) (hsort : SortedIdx idx)
    (hs : List Nat) :
    ∀ (s sf : State) (log : List (List Entry)), NoWrap idx hs s.curr_block_num →
      putCalls size_queue idx hs s = Outcome.done (sf, log) →
      ∀ b ∈ log, ∀ y ∈ b, s.curr_block_num ≤ y.block_num := by
  induction hs with
  | nil =>
    intro s sf log _ hr
    simp only [putCalls] at hr
    injection hr with hr
    injection hr with _ h2
    subst h2
    simp
  | cons h hs ih =>
    intro s sf log hw hr
    obtain ⟨s1, rest, hp, hrest, hlog⟩ := putCalls_cons_done size_queue idx h hs s sf log hr
    have e1 := enqueued_put size_queue idx h s s1 hp
    have sp := cursorAtExit_spec idx h s.curr_block_num hsort
    have hcur : s1.curr_block_num = cursorAtExit idx h s.curr_block_num + 1 := by
      rw [e1.2.2.2.1, Nat.mod_eq_of_lt hw.1]
    have hw2 : NoWrap idx hs s1.curr_block_num := by rw [hcur]; exact hw.2
    subst hlog
    intro b hb y hy
    rcases List.mem_cons.mp hb with hb1 | hb2
    · subst hb1
      rw [e1.2.2.1] at hy
      exact (sp.2.1 y hy).1
    · have := ih s1 sf rest hw2 hrest b hb2 y hy
      have := sp.1
      omega

/-- C4, no re-emission: over a sorted index, for every sequence of
    `put_entry_queue` calls (any heights) in which no `curr_block_num++` wraps,
    every entry pushed by a later call has a block number strictly greater than
    that of every entry pushed by an earlier call. -/
theorem putCalls_no_reemission (size_queue : Nat) (idx : List Entry) (hs : List Nat)
    (s sf : State) (log : List (List Entry)) (hsort : SortedIdx idx)
    (hw : NoWrap idx hs s.curr_block_num)
    (hr : putCalls size_queue idx hs s = Outcome.done (sf, log)) :
    log.Pairwise (fun a b => ∀ x ∈ a, ∀ y ∈ b, x.block_num < y.block_num) := by
  induction hs generalizing s sf log with
  | nil =>
    simp only [putCalls] at hr
    injection hr with hr
    injection hr with _ h2
    subst h2
    exact List.Pairwise.nil
  | cons h hs ih =>
    obtain ⟨s1, rest, hp, hrest, hlog⟩ := putCalls_cons_done size_queue idx h hs s sf log hr
    have e1 := enqueued_put size_queue idx h s s1 hp
    have sp := cursorAtExit_spec idx h s.curr_block_num hsort
    have hcur : s1.curr_block_num = cursorAtExit idx h s.curr_block_num + 1 := by
      rw [e1.2.2.2.1, Nat.mod_eq_of_lt hw.1]
    have hw2 : NoWrap idx hs s1.curr_block_num := by rw [hcur]; exact hw.2
    subst hlog
    refine List.pairwise_cons.mpr ⟨?_, ih s1 sf rest hw2 hrest⟩
    intro b hb x hx y hy
    have hlow := putCalls_above_cursor size_queue idx hsort hs s1 sf rest hw2 hrest b hb y hy
    rw [e1.2.2.1] at hx
    have := (sp.2.1 x hx).2.1
    omega

theorem putCalls_no_reemission_witness :
    SortedIdx scenarioA ∧ NoWrap scenarioA [2, 4, 6] init.curr_block_num ∧
    putCalls 10 scenarioA [2, 4, 6] init = Outcome.done (⟨scenarioA, 6, []⟩,
      [[⟨101, 1, 0⟩], [⟨102, 2, 0⟩, ⟨103, 3, 0⟩], [⟨104, 4, 0⟩, ⟨105, 5, 0⟩]]) ∧
    List.Pairwise (fun a b => ∀ x ∈ a, ∀ y ∈ b, Entry.block_num x < Entry.block_num y)
      [[⟨101, 1, 0⟩], [⟨102, 2, 0⟩, ⟨103, 3, 0⟩], [⟨104, 4, 0⟩, ⟨105, 5, 0⟩]] :=
  ⟨by decide, by decide, by decide,
    putCalls_no_reemission 10 scenarioA [2, 4, 6] init ⟨scenarioA, 6, []⟩ _
      (by decide) (by decide) (by decide)⟩

/-- C3 fails on the code: over the Scenario A index (one entry in each of the
    blocks 1..5), the calls with heights 4, 4, 6 from cursor 0 all return; the
    first pushes the entries of blocks 1..3, the second pushes nothing and
    still increments the cursor from 4 to 5, and the third starts at 5, so the
    entry of block 4 is never pushed although 4 is below the last height 6. -/
theorem putCalls_skips_entry :
    putCalls 10 scenarioA [4, 4, 6] init
      = Outcome.done (⟨[⟨101, 1, 0⟩, ⟨102, 2, 0⟩, ⟨103, 3, 0⟩, ⟨105, 5, 0⟩], 6, []⟩,
          [[⟨101, 1, 0⟩, ⟨102, 2, 0⟩, ⟨103, 3, 0⟩], [], [⟨105, 5, 0⟩]]) ∧
    SortedIdx scenarioA ∧ (⟨104, 4, 0⟩ : Entry) ∈ scenarioA ∧
    (⟨104, 4, 0⟩ : Entry).block_num < 6 ∧
    (⟨104, 4, 0⟩ : Entry) ∉
      ([[⟨101, 1, 0⟩, ⟨102, 2, 0⟩, ⟨103, 3, 0⟩], [], [⟨105, 5, 0⟩]] : List (List Entry)).flatten :=
  ⟨by decide, by decide, by decide, by decide, by decide⟩

/-! ## The writer -/

theorem fillBatch_eq (n : Nat) : ∀ (q : List Entry) (batch : Batch), n ≤ q.length →
    fillBatch n q batch = some (q.drop n, batch ++ (q.take n).map (fun e => (e.txid, e))) := by
  induction n with
  | zero => intro q batch _; simp [fillBatch]
  | succ n ih =>
    intro q batch hn
    cases q with
    | nil => simp at hn
    | cons item q =>
      have hq : n ≤ q.length := by simpa using hn
      simp [fillBatch, ih q _ hq]

theorem drainBody_eq (limit_batch : Nat) (s : State) (h : limit_batch ≤ s.trx_queue.length) :
    drainBody limit_batch s = some
      ({ s with trx_queue := s.trx_queue.drop limit_batch,
                db := dbWrite s.db ((s.trx_queue.take limit_batch).map (fun e => (e.txid, e))) },
        (s.trx_queue.take limit_batch).map (fun e => (e.txid, e))) := by
  simp [drainBody, fillBatch_eq limit_batch s.trx_queue [] h]

theorem written_nil : written [] = [] := rfl

theorem written_cons (batch : Batch) (log : List Batch) :
    written (batch :: log) = batch.map Prod.snd ++ written log := by
  simp [written]

/-- What the drain loop does when `limit_batch` is at least 1 and the fuel
    covers the queue: it returns, having appended to the log batches of exactly
    `limit_batch` puts whose entries, followed by the queue it leaves, are the
    queue it found. -/
theorem drainLoop_spec (limit_batch : Nat) (hb : 1 ≤ limit_batch) (fuel : Nat) :
    ∀ (s : State) (log : List Batch), s.trx_queue.length ≤ fuel →
    ∃ s1 extra, drainLoop limit_batch fuel s log = Outcome.done (s1, log ++ extra) ∧
      written extra ++ s1.trx_queue = s.trx_queue ∧
      (∀ batch ∈ extra, batch.length = limit_batch ∧ ∀ p ∈ batch, p.1 = p.2.txid) ∧
      s1.db = extra.foldl dbWrite s.db ∧
      s1.curr_block_num = s.curr_block_num ∧
      s1.trx_queue.length ≤ limit_batch ∧
      (s.trx_queue ≠ [] → s1.trx_queue ≠ []) := by
  induction fuel with
  | zero =>
    intro s log hf
    have h0 : ¬ s.trx_queue.length > limit_batch := by omega
    refine ⟨s, [], ?_, ?_, ?_, rfl, rfl, by omega, fun h => h⟩
    · simp [drainLoop, h0]
    · simp [written_nil]
    · intro batch hbm; simp at hbm
  | succ fuel ih =>
    intro s log hf
    by_cases hc : s.trx_queue.length > limit_batch
    · have hle : limit_batch ≤ s.trx_queue.length := by omega
      have hbody := drainBody_eq limit_batch s hle
      have hlen : (s.trx_queue.drop limit_batch).length ≤ fuel := by
        rw [List.length_drop]; omega
      obtain ⟨s1, extra, hrun, hfifo, hbatches, hdb, hcur, hleft, hne⟩ :=
        ih { s with trx_queue := s.trx_queue.drop limit_batch,
                    db := dbWrite s.db ((s.trx_queue.take limit_batch).map (fun e => (e.txid, e))) }
          (log ++ [(s.trx_queue.take limit_batch).map (fun e => (e.txid, e))]) hlen
      refine ⟨s1, (s.trx_queue.take limit_batch).map (fun e => (e.txid, e)) :: extra,
        ?_, ?_, ?_, ?_, ?_, hleft, ?_⟩
      · simp only [drainLoop, hc, if_true, hbody]
        rw [hrun]
        simp
      · rw [written_cons, List.append_assoc, hfifo]
        simp [List.map_map, Function.comp_def]
      · intro batch hbm
        rcases List.mem_cons.mp hbm with h1 | h2
        · subst h1
          refine ⟨by simp [List.length_take]; omega, ?_⟩
          intro p hp
          obtain ⟨e, _, he⟩ := List.mem_map.mp hp
          subst he
          rfl
        · exact hbatches batch h2
      · rw [hdb]; rfl
      · rw [hcur]
      · intro _
        apply hne
        intro hnil
        have : (s.trx_queue.drop limit_batch).length = 0 := by
          simp only at hnil
          rw [hnil]; rfl
        rw [List.length_drop] at this
        omega
    · refine ⟨s, [], ?_, ?_, ?_, rfl, rfl, by omega, fun h => h⟩
      · simp [drainLoop, hc]
      · simp [written_nil]
      · intro batch hbm; simp at hbm

theorem get_entry_queue_eq (limit_batch fuel : Nat) (s : State) (hq : s.trx_queue ≠ []) :
    get_entry_queue limit_batch fuel s = drainLoop limit_batch fuel s [] := by
  have : ¬ s.trx_queue.length = 0 := by
    intro h; exact hq (List.length_eq_zero.mp h)
  simp [get_entry_queue, this]

/-- C1 fails on the code in Scenario A: after `put_entry_queue(6)` pushed the
    five entries, `get_entry_queue` with `limit_batch = 1` returns with four
    records in the store, not five; the entry of block 5 is still in the queue
    and its txid is not a key of the store. Running `get_entry_queue` again on
    that state writes no batch and leaves the state as it is. -/
theorem scenarioA_store_has_four :
    put_entry_queue 10 scenarioA 6 init = Outcome.done ⟨scenarioA, 6, []⟩ ∧
    get_entry_queue 1 5 ⟨scenarioA, 6, []⟩ = Outcome.done
      (⟨[⟨105, 5, 0⟩], 6, [(101, ⟨101, 1, 0⟩), (102, ⟨102, 2, 0⟩), (103, ⟨103, 3, 0⟩),
          (104, ⟨104, 4, 0⟩)]⟩,
        [[(101, ⟨101, 1, 0⟩)], [(102, ⟨102, 2, 0⟩)], [(103, ⟨103, 3, 0⟩)], [(104, ⟨104, 4, 0⟩)]]) ∧
    keys [(101, (⟨101, 1, 0⟩ : Entry)), (102, ⟨102, 2, 0⟩), (103, ⟨103, 3, 0⟩), (104, ⟨104, 4, 0⟩)]
      ≠ scenarioA.map Entry.txid ∧
    (105 : Nat) ∉
      keys [(101, (⟨101, 1, 0⟩ : Entry)), (102, ⟨102, 2, 0⟩), (103, ⟨103, 3, 0⟩), (104, ⟨104, 4, 0⟩)] ∧
    get_entry_queue 1 5
        ⟨[⟨105, 5, 0⟩], 6, [(101, ⟨101, 1, 0⟩), (102, ⟨102, 2, 0⟩), (103, ⟨103, 3, 0⟩),
          (104, ⟨104, 4, 0⟩)]⟩
      = Outcome.done
        (⟨[⟨105, 5, 0⟩], 6, [(101, ⟨101, 1, 0⟩), (102, ⟨102, 2, 0⟩), (103, ⟨103, 3, 0⟩),
          (104, ⟨104, 4, 0⟩)]⟩, []) :=
  ⟨by decide, by decide, by decide, by decide, by decide⟩

/-- C7, FIFO order: for every queue and every `limit_batch ≥ 1` the drain of
    `get_entry_queue` returns, and the entries it wrote to the store (batches in
    commit order, puts in call order inside a batch) followed by the entries it
    left in the queue are the queue it found; the store it leaves is the old
    store with these batches written in that order. -/
theorem get_entry_queue_fifo (limit_batch fuel : Nat) (s : State) (hb : 1 ≤ limit_batch)
    (hf : s.trx_queue.length ≤ fuel) :
    ∃ s1 log, drainLoop limit_batch fuel s [] = Outcome.done (s1, log) ∧
      (s.trx_queue ≠ [] → get_entry_queue limit_batch fuel s = Outcome.done (s1, log)) ∧
      written log ++ s1.trx_queue = s.trx_queue ∧
      s1.db = log.foldl dbWrite s.db := by
  obtain ⟨s1, extra, hrun, hfifo, _, hdb, _, _, _⟩ :=
    drainLoop_spec limit_batch hb fuel s [] hf
  rw [List.nil_append] at hrun
  exact ⟨s1, extra, hrun, fun hq => by rw [get_entry_queue_eq limit_batch fuel s hq, hrun],
    hfifo, hdb⟩

theorem get_entry_queue_fifo_witness :
    1 ≤ 2 ∧ scenarioA.length ≤ 5 ∧
    ∃ s1 log, drainLoop 2 5 ⟨scenarioA, 6, []⟩ [] = Outcome.done (s1, log) ∧
      (scenarioA ≠ [] → get_entry_queue 2 5 ⟨scenarioA, 6, []⟩ = Outcome.done (s1, log)) ∧
      written log ++ s1.trx_queue = scenarioA ∧
      s1.db = log.foldl dbWrite [] :=
  ⟨by decide, by decide,
    get_entry_queue_fifo 2 5 ⟨scenarioA, 6, []⟩ (by decide) (by decide)⟩

theorem drainBody_zero (s : State) : drainBody 0 s = some (s, []) := rfl

theorem drainLoop_zero (s : State) (hq : s.trx_queue ≠ []) (fuel : Nat) :
    ∀ log, drainLoop 0 fuel s log = Outcome.outOfFuel := by
  have hpos : s.trx_queue.length > 0 := List.length_pos.mpr hq
  induction fuel with
  | zero => intro log; simp [drainLoop, hpos]
  | succ fuel ih =>
    intro log
    simp only [drainLoop, hpos, if_true, drainBody_zero]
    exact ih _

/-- C10, drain termination: on a non-empty queue the drain loop of
    `get_entry_queue` terminates exactly when `limit_batch ≥ 1`. For
    `limit_batch ≥ 1` some fuel makes it return, and each iteration shortens the
    queue by exactly `limit_batch`; for `limit_batch = 0` an iteration writes an
    empty batch and leaves the state as it was, the loop condition still holds,
    and no amount of fuel makes the loop return. -/
theorem drainLoop_terminates_iff (limit_batch : Nat) (s : State) (log : List Batch)
    (hq : s.trx_queue ≠ []) :
    ((∃ fuel, drainLoop limit_batch fuel s log ≠ Outcome.outOfFuel) ↔ 1 ≤ limit_batch) ∧
    (1 ≤ limit_batch → ∃ fuel r, drainLoop limit_batch fuel s log = Outcome.done r) ∧
    (1 ≤ limit_batch → s.trx_queue.length > limit_batch →
      ∃ s1 batch, drainBody limit_batch s = some (s1, batch) ∧
        s1.trx_queue.length + limit_batch = s.trx_queue.length) ∧
    (limit_batch = 0 →
      drainBody limit_batch s = some (s, []) ∧ s.trx_queue.length > limit_batch ∧
      ∀ fuel, drainLoop limit_batch fuel s log = Outcome.outOfFuel) := by
  have hdone : 1 ≤ limit_batch → ∃ fuel r, drainLoop limit_batch fuel s log = Outcome.done r := by
    intro hb
    obtain ⟨s1, extra, hrun, _⟩ :=
      drainLoop_spec limit_batch hb s.trx_queue.length s log (Nat.le_refl _)
    exact ⟨_, _, hrun⟩
  refine ⟨⟨?_, ?_⟩, hdone, ?_, ?_⟩
  · rintro ⟨fuel, hfuel⟩
    by_contra hb
    have h0 : limit_batch = 0 := by omega
    subst h0
    exact hfuel (drainLoop_zero s hq fuel log)
  · intro hb
    obtain ⟨fuel, r, hr⟩ := hdone hb
    exact ⟨fuel, by rw [hr]; simp⟩
  · intro _ hlen
    refine ⟨_, _, drainBody_eq limit_batch s (Nat.le_of_lt hlen), ?_⟩
    simp only [List.length_drop]
    omega
  · intro h0
    subst h0
    exact ⟨drainBody_zero s, List.length_pos.mpr hq, fun fuel => drainLoop_zero s hq fuel log⟩

theorem drainLoop_terminates_iff_witness :
    scenarioA ≠ [] ∧
    (((∃ fuel, drainLoop 0 fuel ⟨scenarioA, 6, []⟩ [] ≠ Outcome.outOfFuel) ↔ 1 ≤ 0) ∧
    (1 ≤ 0 → ∃ fuel r, drainLoop 0 fuel ⟨scenarioA, 6, []⟩ [] = Outcome.done r) ∧
    (1 ≤ 0 → scenarioA.length > 0 →
      ∃ s1 batch, drainBody 0 ⟨scenarioA, 6, []⟩ = some (s1, batch) ∧
        s1.trx_queue.length + 0 = scenarioA.length) ∧
    (0 = 0 →
      drainBody 0 ⟨scenarioA, 6, []⟩ = some (⟨scenarioA, 6, []⟩, []) ∧ scenarioA.length > 0 ∧
      ∀ fuel, drainLoop 0 fuel ⟨scenarioA, 6, []⟩ [] = Outcome.outOfFuel)) :=
  ⟨by decide, drainLoop_terminates_iff 0 ⟨scenarioA, 6, []⟩ [] (by decide)⟩

/-- C6 fails on the code: with `size_queue = 2`, from the empty queue one call
    `put_entry_queue(6)` over the Scenario A index is enabled (0 < 2) and
    pushes all five entries, so a reachable state holds five entries, more
    than `size_queue`. -/
theorem reachable_exceeds_size_queue :
    Reachable 2 1 scenarioA ⟨scenarioA, 6, []⟩ ∧
    put_entry_queue 2 scenarioA 6 init = Outcome.done ⟨scenarioA, 6, []⟩ ∧
    2 < (⟨scenarioA, 6, []⟩ : State).trx_queue.length :=
  ⟨Reachable.put 6 init _ (Reachable.start 0 []) (by decide), by decide, by decide⟩

end QueryTxid
